import Mathlib

set_option linter.unusedSectionVars false

/-!
# Verification of the nucypher-kms cryptographic core

Shallow embedding of `nucypher/crypto/dkg.py` and `nucypher/crypto/two_party.py`.

Modelling conventions:

* The external curve library (pyUmbral) supplies `CurveBN` (a scalar mod the
  prime group order) and `Point` (an element of the cyclic curve group of
  that order).  Scalars are modelled by an arbitrary field `F` with decidable
  equality; since the group is cyclic of prime order with fixed generator
  `g`, a `Point` is modelled by its discrete logarithm with respect to `g`,
  so the generator itself is the point with logarithm `1`.
* The hash-to-scalar function (`hash_to_curvebn` with `ExtendedKeccak`) is an
  external oracle; it is passed in as an explicit function argument `H`
  taking the transcript bytes and the two hashed points.
* Bytes are modelled as `List Nat` (each entry one octet).
* Randomness (`CurveBN.gen_rand`) is modelled by an explicit tape of sampled
  values, passed as an argument and consumed in program order.
* Python exceptions become `Except Err` values.  The code raises bare
  `Exception`s; the `Err` constructors use the error-kind names of the
  specification plus `typeError`/`indexError` for the dynamic failures the
  Python runtime itself would raise (e.g. multiplying two `Point`s,
  indexing an empty coefficient list).
-/

namespace NuCypher

/-- A curve point, represented by its discrete logarithm with respect to the
curve generator (the curve group is cyclic of prime order, so this
representation is faithful up to isomorphism). -/
structure Pt (F : Type) where
  dlog : F
deriving DecidableEq, Repr

/-- A polynomial coefficient is duck-typed in the source:
`Union[CurveBN, Point]`. -/
inductive Coeff (F : Type) where
  | scalar (c : F)
  | point (P : Pt F)
deriving DecidableEq, Repr

/-- Error kinds.  The first five follow the specification's §7 vocabulary;
`typeError` and `indexError` stand for the dynamic `TypeError` /
`AttributeError` / `IndexError` the Python runtime raises when duck typing
fails. -/
inductive Err where
  | proofInvalid
  | commitmentMismatch
  | malformedInput
  | invalidState
  | invalidArgument
  | typeError
  | indexError
deriving DecidableEq, Repr

instance {ε α : Type} [DecidableEq ε] [DecidableEq α] : DecidableEq (Except ε α) := fun a b =>
  match a, b with
  | .ok a, .ok b =>
      if h : a = b then .isTrue (by rw [h]) else .isFalse (fun hab => h (by cases hab; rfl))
  | .ok _, .error _ => .isFalse (fun hab => by cases hab)
  | .error _, .ok _ => .isFalse (fun hab => by cases hab)
  | .error a, .error b =>
      if h : a = b then .isTrue (by rw [h]) else .isFalse (fun hab => h (by cases hab; rfl))

section DKG

variable {F : Type} [Field F] [DecidableEq F]

/-- `Point.get_generator_from_curve()`: the secp256k1 basepoint.  In the
discrete-log representation the generator has logarithm `1`. -/
def genPoint : Pt F := ⟨1⟩

/-- Scalar multiplication `CurveBN * Point` / `Point * CurveBN` of the curve
library, in discrete-log representation. -/
def scalarMulPt (c : F) (P : Pt F) : Pt F := ⟨c * P.dlog⟩

/-- Point addition of the curve library. -/
def ptAdd (P Q : Pt F) : Pt F := ⟨P.dlog + Q.dlog⟩

/-- Point subtraction of the curve library. -/
def ptSub (P Q : Pt F) : Pt F := ⟨P.dlog - Q.dlog⟩

/-- The transcript / hash oracle: `hash_to_curvebn(*public_data, bytes(P1),
bytes(P2), params=default_params(), hash_class=ExtendedKeccak)`. -/
def HashFn (F : Type) : Type := List Nat → Pt F → Pt F → F

/-- A zero-knowledge Schnorr Proof of Knowledge (class `SchnorrProof`):
the pair `(sigma, public_comm)`. -/
structure SchnorrProof (F : Type) where
  sigma : F
  public_comm : F
deriving DecidableEq, Repr

/-- `SchnorrProof.prove_knowledge(secret, *public_data)`.  The nonce
`k = CurveBN.gen_rand()` is the sampled random value, passed explicitly. -/
def SchnorrProof.prove_knowledge (secret : F) (public_data : List Nat) (k : F)
    (H : HashFn F) : SchnorrProof F :=
  let public_comm := H public_data (scalarMulPt secret genPoint) (scalarMulPt k genPoint)
  let sigma := k + secret * public_comm
  ⟨sigma, public_comm⟩

/-- `SchnorrProof.verify(witness, *public_data)`.  The witness comes from a
duck-typed coefficient list, so it is taken as a `Coeff`; a scalar witness
would make `(self.public_comm * witness)` a scalar and the following point
subtraction a dynamic type error in the curve library. -/
def SchnorrProof.verify (pf : SchnorrProof F) (witness : Coeff F)
    (public_data : List Nat) (H : HashFn F) : Except Err Bool :=
  match witness with
  | .scalar _ => .error .typeError
  | .point w =>
      let k_prime := ptSub (scalarMulPt pf.sigma genPoint) (scalarMulPt pf.public_comm w)
      let sigma_prime := H public_data w k_prime
      if pf.public_comm = sigma_prime then .ok true
      else .error .proofInvalid

/-- `SchnorrProof.to_bytes`: `sigma.to_bytes() + public_comm.to_bytes()`,
with `serScalar` the curve library's fixed-width (32-byte) encoding. -/
def SchnorrProof.to_bytes (serScalar : F → List Nat) (pf : SchnorrProof F) : List Nat :=
  serScalar pf.sigma ++ serScalar pf.public_comm

/-- `SchnorrProof.from_bytes`: `BytestringSplitter((CurveBN, 32), (CurveBN, 32))`
refuses any buffer whose length differs from the expected 64 bytes. -/
def SchnorrProof.from_bytes (deserScalar : List Nat → F) (data : List Nat) :
    Except Err (SchnorrProof F) :=
  if data.length = 32 + 32 then
    .ok ⟨deserScalar (data.take 32), deserScalar ((data.drop 32).take 32)⟩
  else .error .malformedInput

/-- A share from a Pederson DKG ceremony (class `DKGShare`).  On a public
polynomial, `Polynomial.evaluate` duck-types the `share` field as a `Point`,
so the field holds a `Coeff`. -/
structure DKGShare (F : Type) where
  share : Coeff F
  index : F
deriving DecidableEq, Repr

/-- `DKGShare.to_bytes`: `share.to_bytes() + index.to_bytes()` (the normal,
scalar-share case). -/
def DKGShare.to_bytes (serScalar : F → List Nat) (serPoint : Pt F → List Nat)
    (s : DKGShare F) : List Nat :=
  (match s.share with
   | .scalar c => serScalar c
   | .point P => serPoint P) ++ serScalar s.index

/-- `DKGShare.from_bytes`: `BytestringSplitter((CurveBN, 32), (CurveBN, 32))`
refuses any buffer whose length differs from the expected 64 bytes. -/
def DKGShare.from_bytes (deserScalar : List Nat → F) (data : List Nat) :
    Except Err (DKGShare F) :=
  if data.length = 32 + 32 then
    .ok ⟨.scalar (deserScalar (data.take 32)), deserScalar ((data.drop 32).take 32)⟩
  else .error .malformedInput

/-- A simple polynomial that can be used privately or publicly as a
commitment (class `Polynomial`). -/
structure Polynomial (F : Type) where
  coeffs : List (Coeff F)
  secret : Bool
deriving DecidableEq, Repr

/-- `Polynomial.gen_rand(degree)`: `degree` draws of `CurveBN.gen_rand()`,
taken here from the random tape `rand` in order. -/
def Polynomial.gen_rand (degree : Nat) (rand : Nat → F) : Polynomial F :=
  ⟨(List.range degree).map (fun i => Coeff.scalar (rand i)), true⟩

/-- `result * x` inside `umbral.utils.poly_eval`: multiplying a `CurveBN` or a
`Point` accumulator by the scalar index succeeds on both duck types. -/
def coeffMulScalar (result : Coeff F) (x : F) : Coeff F :=
  match result with
  | .scalar c => .scalar (c * x)
  | .point P => .point ⟨P.dlog * x⟩

/-- `result + coeff[i]` inside `umbral.utils.poly_eval`: adding two scalars or
two points succeeds; a mixed pair is a dynamic type error in the curve
library. -/
def coeffAdd (a b : Coeff F) : Except Err (Coeff F) :=
  match a, b with
  | .scalar x, .scalar y => .ok (.scalar (x + y))
  | .point P, .point Q => .ok (.point (ptAdd P Q))
  | _, _ => .error .typeError

/-- The loop of `umbral.utils.poly_eval`:
`for i in range(-2, -len(coeff) - 1, -1): result = result * x + coeff[i]`. -/
def poly_eval_loop (x : F) : Coeff F → List (Coeff F) → Except Err (Coeff F)
  | result, [] => .ok result
  | result, ci :: rest => do
      let r ← coeffAdd (coeffMulScalar result x) ci
      poly_eval_loop x r rest

/-- `umbral.utils.poly_eval(coeff, x)`: Horner evaluation starting from the
last coefficient.  `coeff[-1]` on an empty list is an `IndexError`. -/
def poly_eval (coeff : List (Coeff F)) (x : F) : Except Err (Coeff F) :=
  match coeff.reverse with
  | [] => .error .indexError
  | c :: cs => poly_eval_loop x c cs

/-- `Polynomial.evaluate(index=None)`: a `None` index is replaced by a fresh
`CurveBN.gen_rand()` draw, supplied here as `rand` (a `CurveBN` argument is
always truthy in Python, so only `None` triggers the draw). -/
def Polynomial.evaluate (p : Polynomial F) (index : Option F) (rand : F) :
    Except Err (DKGShare F) := do
  let idx := index.getD rand
  let share ← poly_eval p.coeffs idx
  .ok ⟨share, idx⟩

/-- `a_i * g` inside `Polynomial.commitment`: scalar-times-point succeeds,
while a `Point` coefficient makes `Point * Point`, which the curve library
rejects dynamically. -/
def coeffMulPoint (a : Coeff F) (g : Pt F) : Except Err (Coeff F) :=
  match a with
  | .scalar c => .ok (.point (scalarMulPt c g))
  | .point _ => .error .typeError

/-- The list comprehension `[a_i * g for a_i in self.coeffs]` of
`Polynomial.commitment`, evaluated left to right. -/
def commitCoeffs (g : Pt F) : List (Coeff F) → Except Err (List (Coeff F))
  | [] => .ok []
  | a_i :: rest => do
      let p ← coeffMulPoint a_i g
      let ps ← commitCoeffs g rest
      .ok (p :: ps)

/-- `Polynomial.commitment()`: returns a non-secret polynomial commitment.
The source performs no check of `self.secret`. -/
def Polynomial.commitment (p : Polynomial F) : Except Err (Polynomial F) := do
  let pub_coeffs ← commitCoeffs genPoint p.coeffs
  .ok ⟨pub_coeffs, false⟩

/-- `DKGShare.verify(poly_comm)`: re-evaluates the commitment at
`self.index` and compares with `self.share * g`; raises on mismatch. -/
def DKGShare.verify (s : DKGShare F) (poly_comm : Polynomial F) : Except Err Bool := do
  let comm_share ← poly_comm.evaluate (some s.index) 0
  let sg ← coeffMulPoint s.share genPoint
  if comm_share.share = sg then .ok true
  else .error .commitmentMismatch

/-- The list comprehension `[secret_polynomial.evaluate() for _ in range(n)]`
of `gen_pederson_shares`: `count` evaluations at fresh random indices, drawn
from the tape starting at position `start`. -/
def evalShares (p : Polynomial F) (tape : Nat → F) (start : Nat) :
    Nat → Except Err (List (DKGShare F))
  | 0 => .ok []
  | count + 1 => do
      let sh ← p.evaluate none (tape start)
      let rest ← evalShares p tape (start + 1) count
      .ok (sh :: rest)

/-- `gen_pederson_shares(t, n, ceremony_id)`: Round 1 of Pederson's DKG.
Random draws come from `tape` in program order: coefficients at positions
`0..t-1`, the Schnorr nonce at position `t`, share indices from `t+1` on. -/
def gen_pederson_shares (t n : Nat) (ceremony_id : List Nat) (H : HashFn F)
    (tape : Nat → F) :
    Except Err (Polynomial F × SchnorrProof F × List (DKGShare F)) := do
  let secret_polynomial := Polynomial.gen_rand t tape
  let poly_comm ← secret_polynomial.commitment
  let a0 : F ← match secret_polynomial.coeffs with
    | [] => .error .indexError
    | .scalar a :: _ => .ok a
    | .point _ :: _ => .error .typeError
  let comm_proof := SchnorrProof.prove_knowledge a0 ceremony_id (tape t) H
  let shares ← evalShares secret_polynomial tape (t + 1) n
  .ok (poly_comm, comm_proof, shares)

/-- `verify_pederson_commitment(poly_comm, comm_proof, ceremony_id)`:
verifies the Schnorr proof against `poly_comm.coeffs[0]` (an `IndexError`
when the coefficient list is empty). -/
def verify_pederson_commitment (poly_comm : Polynomial F)
    (comm_proof : SchnorrProof F) (ceremony_id : List Nat) (H : HashFn F) :
    Except Err Bool :=
  match poly_comm.coeffs with
  | [] => .error .indexError
  | c :: _ => comm_proof.verify c ceremony_id H

/-- `verify_pederson_share(share, poly_comm)`: delegates to
`share.verify(poly_comm)`. -/
def verify_pederson_share (share : DKGShare F) (poly_comm : Polynomial F) :
    Except Err Bool :=
  share.verify poly_comm

/-- Scalar-level Horner accumulator, mirroring `poly_eval_loop` on scalars. -/
def hornerAux (x : F) : F → List F → F
  | result, [] => result
  | result, c :: cs => hornerAux x (result * x + c) cs

/-- Scalar-level value of `poly_eval` on a (nonempty) scalar coefficient
list; `0` on the empty list, which `poly_eval` itself rejects. -/
def horner (coeffs : List F) (x : F) : F :=
  match coeffs.reverse with
  | [] => 0
  | c :: cs => hornerAux x c cs

/-- The explicit list of shares `evalShares` produces on a secret polynomial
with scalar coefficient list `l`. -/
def sharesSpec (l : List F) (tape : Nat → F) : Nat → Nat → List (DKGShare F)
  | _, 0 => []
  | start, count + 1 =>
      ⟨.scalar (horner l (tape start)), tape start⟩ :: sharesSpec l tape (start + 1) count

/-- `coeff.to_bytes()` on a duck-typed coefficient, with `serScalar` and
`serPoint` the curve library's canonical fixed-width encodings. -/
def Coeff.to_bytes (serScalar : F → List Nat) (serPoint : Pt F → List Nat) :
    Coeff F → List Nat
  | .scalar c => serScalar c
  | .point P => serPoint P

/-- The 4-byte big-endian length header written by
`bytestring_splitter.VariableLengthBytestring` (`message_length.to_bytes(4,
"big")`).  Modelled from the `bytestring_splitter` dependency. -/
def vlbHeader (n : Nat) : List Nat :=
  [n / 2 ^ 24 % 256, n / 2 ^ 16 % 256, n / 2 ^ 8 % 256, n % 256]

/-- `int.from_bytes(..., "big")`. -/
def fromBytesBE (l : List Nat) : Nat := l.foldl (fun acc b => acc * 256 + b) 0

/-- `VariableLengthBytestring.bundle(collection)`: concatenation of the
length-prefixed messages. -/
def VariableLengthBytestring.bundle (items : List (List Nat)) : List Nat :=
  (items.map (fun m => vlbHeader m.length ++ m)).flatten

/-- `VariableLengthBytestring.dispense(data)`: repeatedly read a 4-byte
length header and take that many following bytes, until the buffer is
exhausted. -/
def VariableLengthBytestring.dispense (data : List Nat) : List (List Nat) :=
  if h : data = [] then []
  else
    let len := fromBytesBE (data.take 4)
    let part := (data.drop 4).take len
    part :: VariableLengthBytestring.dispense (data.drop (4 + len))
termination_by data.length
decreasing_by
  simp only [List.length_drop]
  have hpos : 0 < data.length := List.length_pos.mpr h
  omega

/-- `Polynomial.to_bytes()`: each coefficient individually encoded, then
bundled into the length-prefixed container. -/
def Polynomial.to_bytes (serScalar : F → List Nat) (serPoint : Pt F → List Nat)
    (p : Polynomial F) : List Nat :=
  VariableLengthBytestring.bundle (p.coeffs.map (Coeff.to_bytes serScalar serPoint))

/-- One dispensed chunk decoded by `Polynomial.from_bytes`:
`CurveBN.from_bytes` when `secret` else `Point.from_bytes` (both supplied by
the curve library, abstracted as `deserScalar` / `deserPoint`). -/
def decodeCoeff (deserScalar : List Nat → F) (deserPoint : List Nat → Pt F)
    (secret : Bool) (chunk : List Nat) : Coeff F :=
  if secret then .scalar (deserScalar chunk) else .point (deserPoint chunk)

/-- `Polynomial.from_bytes(data, secret)`. -/
def Polynomial.from_bytes (deserScalar : List Nat → F) (deserPoint : List Nat → Pt F)
    (data : List Nat) (secret : Bool) : Polynomial F :=
  ⟨(VariableLengthBytestring.dispense data).map (decodeCoeff deserScalar deserPoint secret),
   secret⟩

/-- `umbral.utils.lambda_coeff(id_i, selected_ids)`: filter out `id_i`, then
multiply the factors `id_j / (id_j - id_i)`; `None` when nothing remains. -/
def lambda_coeff (id_i : F) (selected_ids : List F) : Option F :=
  match selected_ids.filter (fun x => decide (x ≠ id_i)) with
  | [] => none
  | x :: xs =>
      some (xs.foldl (fun result id_j => result * (id_j / (id_j - id_i))) (x / (x - id_i)))

/-- One half of a two-of-two split (class `TwoPartyElement`); the `share`
is duck-typed `Union[CurveBN, Point]`. -/
structure TwoPartyElement (F : Type) where
  share : Coeff F
  index : F
deriving DecidableEq, Repr

/-- `lambda_i * self.share`: a `CurveBN` times a `CurveBN` or a `Point`. -/
def scalarMulCoeff (c : F) : Coeff F → Coeff F
  | .scalar a => .scalar (c * a)
  | .point P => .point ⟨c * P.dlog⟩

/-- `TwoPartyElement.reassemble_with(other)`: Lagrange interpolation at zero
of the two shares.  A `None` Lagrange coefficient (colliding indices) makes
`None * share` a dynamic type error in Python. -/
def TwoPartyElement.reassemble_with (self other : TwoPartyElement F) :
    Except Err (Coeff F) := do
  let lambda_1 ← match lambda_coeff self.index [self.index, other.index] with
    | some l => Except.ok l
    | none => Except.error Err.typeError
  let lambda_2 ← match lambda_coeff other.index [self.index, other.index] with
    | some l => Except.ok l
    | none => Except.error Err.typeError
  coeffAdd (scalarMulCoeff lambda_1 self.share) (scalarMulCoeff lambda_2 other.share)

/-- `TwoPartyElement.split_curvebn(secret, chosen_share, chosen_index)`.
`~chosen_index` is the curve library's modular inverse, `chosen_index⁻¹`
(the library call fails on a zero index; field inversion totalises it as
`0⁻¹ = 0`).  The fresh random index `x_rand_index = CurveBN.gen_rand()` is
the sampled value, passed explicitly. -/
def TwoPartyElement.split_curvebn (secret chosen_share chosen_index : F)
    (x_rand_index : F) : TwoPartyElement F :=
  let r_coeff := (chosen_share - secret) * chosen_index⁻¹
  let z_share := secret + r_coeff * x_rand_index
  ⟨.scalar z_share, x_rand_index⟩

/-- `TwoPartyElement.from_shared_secret(priv_key, sharing_point,
indexing_point, params)`.  Modelled from the spec:
`derive_curvebn_shared_secret` is defined in `nucypher/crypto/utils.py`,
which is not among the provided sources; the spec describes it as a
deterministic Diffie–Hellman-style combination of the private key with one
public point under the curve parameters, so it is kept abstract here as an
explicit function argument of exactly those inputs. -/
def TwoPartyElement.from_shared_secret {Params : Type}
    (derive : F → Pt F → Params → F) (priv_key : F)
    (sharing_point indexing_point : Pt F) (params : Params) : TwoPartyElement F :=
  ⟨.scalar (derive priv_key sharing_point params), derive priv_key indexing_point params⟩

end DKG

instance : Fact (Nat.Prime 5) := ⟨by norm_num⟩

section HornerLemmas

variable {F : Type} [Field F] [DecidableEq F]

theorem except_bind_ok {ε α β : Type} (a : α) (f : α → Except ε β) :
    (Except.ok a : Except ε α) >>= f = f a := rfl

theorem except_bind_error {ε α β : Type} (e : ε) (f : α → Except ε β) :
    (Except.error e : Except ε α) >>= f = .error e := rfl

theorem poly_eval_loop_scalar (x a : F) (cs : List F) :
    poly_eval_loop x (.scalar a) (cs.map Coeff.scalar) = .ok (.scalar (hornerAux x a cs)) := by
  induction cs generalizing a with
  | nil => rfl
  | cons c cs ih =>
      simp only [List.map_cons, poly_eval_loop, coeffMulScalar, coeffAdd, hornerAux]
      exact ih (a * x + c)

theorem poly_eval_loop_point (x a : F) (cs : List F) :
    poly_eval_loop x (.point ⟨a⟩) (cs.map (fun c => Coeff.point ⟨c⟩)) =
      .ok (.point ⟨hornerAux x a cs⟩) := by
  induction cs generalizing a with
  | nil => rfl
  | cons c cs ih =>
      simp only [List.map_cons, poly_eval_loop, coeffMulScalar, coeffAdd, ptAdd, hornerAux]
      exact ih (a * x + c)

theorem poly_eval_scalar (l : List F) (hl : l ≠ []) (x : F) :
    poly_eval (l.map Coeff.scalar) x = .ok (.scalar (horner l x)) := by
  unfold poly_eval horner
  rw [← List.map_reverse]
  rcases h : l.reverse with _ | ⟨c, cs⟩
  · exact absurd (by simpa using congrArg List.reverse h) hl
  · exact poly_eval_loop_scalar x c cs

theorem poly_eval_point (l : List F) (hl : l ≠ []) (x : F) :
    poly_eval (l.map (fun c => Coeff.point ⟨c⟩)) x = .ok (.point ⟨horner l x⟩) := by
  unfold poly_eval horner
  rw [← List.map_reverse]
  rcases h : l.reverse with _ | ⟨c, cs⟩
  · exact absurd (by simpa using congrArg List.reverse h) hl
  · exact poly_eval_loop_point x c cs

theorem commitCoeffs_scalar (l : List F) :
    commitCoeffs genPoint (l.map Coeff.scalar) =
      .ok (l.map (fun c => Coeff.point (scalarMulPt c genPoint))) := by
  induction l with
  | nil => rfl
  | cons c cs ih =>
      simp only [List.map_cons, commitCoeffs, coeffMulPoint, ih]
      rfl

theorem map_scalarMulPt_gen (l : List F) :
    l.map (fun c => Coeff.point (scalarMulPt c genPoint)) =
      l.map (fun c => Coeff.point ⟨c⟩) := by
  simp [scalarMulPt, genPoint]

theorem evaluate_scalar (l : List F) (hl : l ≠ []) (x r : F) :
    (⟨l.map Coeff.scalar, true⟩ : Polynomial F).evaluate (some x) r =
      .ok ⟨.scalar (horner l x), x⟩ := by
  simp [Polynomial.evaluate, poly_eval_scalar l hl, except_bind_ok]

theorem evalShares_eq (l : List F) (hl : l ≠ []) (tape : Nat → F)
    (count start : Nat) :
    evalShares (⟨l.map Coeff.scalar, true⟩ : Polynomial F) tape start count =
      .ok (sharesSpec l tape start count) := by
  induction count generalizing start with
  | zero => rfl
  | succ m ih =>
      have he : (⟨l.map Coeff.scalar, true⟩ : Polynomial F).evaluate none (tape start) =
          .ok ⟨.scalar (horner l (tape start)), tape start⟩ := by
        simp [Polynomial.evaluate, poly_eval_scalar l hl, except_bind_ok]
      simp only [evalShares, he, ih (start + 1), sharesSpec, except_bind_ok]

theorem sharesSpec_length (l : List F) (tape : Nat → F) (count start : Nat) :
    (sharesSpec l tape start count).length = count := by
  induction count generalizing start with
  | zero => rfl
  | succ m ih => simp [sharesSpec, ih]

theorem mem_sharesSpec {l : List F} {tape : Nat → F} {count start : Nat}
    {sh : DKGShare F} (h : sh ∈ sharesSpec l tape start count) :
    ∃ y : F, sh = ⟨.scalar (horner l y), y⟩ := by
  induction count generalizing start with
  | zero => cases h
  | succ m ih =>
      rcases List.mem_cons.mp h with h0 | hrest
      · exact ⟨tape start, h0⟩
      · exact ih hrest

theorem gen_pederson_shares_eq (t n : Nat) (ht : 1 ≤ t) (cid : List Nat)
    (H : HashFn F) (tape : Nat → F) :
    gen_pederson_shares t n cid H tape = .ok
      (⟨((List.range t).map tape).map (fun c => Coeff.point (scalarMulPt c genPoint)), false⟩,
       SchnorrProof.prove_knowledge (tape 0) cid (tape t) H,
       sharesSpec ((List.range t).map tape) tape (t + 1) n) := by
  obtain ⟨m, rfl⟩ : ∃ m, t = m + 1 := ⟨t - 1, by omega⟩
  have hl : (List.range (m + 1)).map tape ≠ [] := by simp
  have hmm : (List.range (m + 1)).map (fun i => Coeff.scalar (tape i)) =
      ((List.range (m + 1)).map tape).map Coeff.scalar := by
    rw [List.map_map]; rfl
  simp only [gen_pederson_shares, Polynomial.gen_rand, Polynomial.commitment, hmm,
    commitCoeffs_scalar, evalShares_eq _ hl, except_bind_ok]
  rw [List.range_succ_eq_map]
  rfl

theorem verify_eval_share (l : List F) (hl : l ≠ []) (y : F) :
    DKGShare.verify ⟨.scalar (horner l y), y⟩
      ⟨l.map (fun c => Coeff.point (scalarMulPt c genPoint)), false⟩ = .ok true := by
  simp [DKGShare.verify, Polynomial.evaluate, map_scalarMulPt_gen,
    poly_eval_point l hl y, coeffMulPoint, scalarMulPt, genPoint, except_bind_ok]

theorem verify_prove (s k : F) (t1 t2 : List Nat) (H : HashFn F) :
    (SchnorrProof.prove_knowledge s t1 k H).verify (.point (scalarMulPt s genPoint)) t2 H =
      if H t1 (scalarMulPt s genPoint) (scalarMulPt k genPoint) =
          H t2 (scalarMulPt s genPoint) (scalarMulPt k genPoint)
      then .ok true else .error .proofInvalid := by
  simp only [SchnorrProof.prove_knowledge, SchnorrProof.verify, scalarMulPt, genPoint, ptSub,
    mul_one]
  have hk : k + s * H t1 ⟨s⟩ ⟨k⟩ - H t1 ⟨s⟩ ⟨k⟩ * s = k := by ring
  simp only [hk]

theorem lambda_coeff_pair_left (a b : F) (h : b ≠ a) :
    lambda_coeff a [a, b] = some (b / (b - a)) := by
  simp [lambda_coeff, List.filter_cons, h]

theorem lambda_coeff_pair_right (a b : F) (h : a ≠ b) :
    lambda_coeff b [a, b] = some (a / (a - b)) := by
  simp [lambda_coeff, List.filter_cons, h]

theorem fromBytesBE_vlbHeader (n : Nat) (h : n < 2 ^ 32) :
    fromBytesBE (vlbHeader n) = n := by
  simp only [fromBytesBE, vlbHeader, List.foldl_cons, List.foldl_nil]
  omega

theorem dispense_bundle (items : List (List Nat))
    (h : ∀ m ∈ items, m.length < 2 ^ 32) :
    VariableLengthBytestring.dispense (VariableLengthBytestring.bundle items) = items := by
  induction items with
  | nil =>
      rw [show VariableLengthBytestring.bundle [] = [] from rfl,
        VariableLengthBytestring.dispense]
      simp
  | cons m rest ih =>
      have hm : m.length < 2 ^ 32 := h m (by simp)
      have hrest : ∀ x ∈ rest, x.length < 2 ^ 32 := fun x hx => h x (by simp [hx])
      have hhead : (vlbHeader m.length).length = 4 := rfl
      have hbundle : VariableLengthBytestring.bundle (m :: rest) =
          vlbHeader m.length ++ (m ++ VariableLengthBytestring.bundle rest) := by
        simp [VariableLengthBytestring.bundle]
      rw [VariableLengthBytestring.dispense, hbundle]
      have hnonempty : ¬(vlbHeader m.length ++ (m ++ VariableLengthBytestring.bundle rest)
          = []) := by simp [vlbHeader]
      rw [dif_neg hnonempty]
      have htake4 : (vlbHeader m.length ++ (m ++ VariableLengthBytestring.bundle rest)).take 4
          = vlbHeader m.length := by
        rw [← hhead, List.take_left]
      have hdrop4 : (vlbHeader m.length ++ (m ++ VariableLengthBytestring.bundle rest)).drop 4
          = m ++ VariableLengthBytestring.bundle rest := by
        rw [← hhead, List.drop_left]
      simp only [htake4, hdrop4, fromBytesBE_vlbHeader m.length hm, List.take_left]
      congr 1
      rw [← List.drop_drop, hdrop4, List.drop_left]
      exact ih hrest

theorem commitCoeffs_point_mem {l : List (Coeff F)} {P : Pt F}
    (h : Coeff.point P ∈ l) : commitCoeffs genPoint l = .error .typeError := by
  induction l with
  | nil => cases h
  | cons c cs ih =>
      rcases List.mem_cons.mp h with rfl | hmem
      · rfl
      · cases c with
        | point Q => rfl
        | scalar a =>
            simp [commitCoeffs, coeffMulPoint, ih hmem, except_bind_ok, except_bind_error]

end HornerLemmas

section Theorems

variable {F : Type} [Field F] [DecidableEq F]

/-- **C2** — Schnorr completeness: for every secret scalar `s`, every
transcript byte sequence, every nonce `k` sampled during proving, and every
hash oracle, the proof returned by `SchnorrProof.prove_knowledge` — with
`sigma = k + s·c` and `c = H(transcript, s·G, k·G)` — verifies successfully
(`verify` returns `true`) against witness `s·G` and the same transcript. -/
theorem schnorr_completeness (s k : F) (transcript : List Nat) (H : HashFn F) :
    (SchnorrProof.prove_knowledge s transcript k H).verify
      (.point (scalarMulPt s genPoint)) transcript H = .ok true := by
  simp only [SchnorrProof.prove_knowledge, SchnorrProof.verify, scalarMulPt, genPoint, ptSub,
    mul_one]
  have hk : k + s * H transcript ⟨s⟩ ⟨k⟩ - H transcript ⟨s⟩ ⟨k⟩ * s = k := by ring
  simp [hk]

/-- **C1** — Share-verification completeness: for every non-empty secret
polynomial `P` and every index `x`, the share obtained by evaluating `P` at
`x` verifies against `P`'s public commitment (`DKGShare(P(x), x).verify`
returns `true` on `P.commitment()`); equivalently, every share returned by
`gen_pederson_shares` passes `verify_pederson_share` against the commitment
returned alongside it. -/
theorem share_verification_completeness :
    (∀ (coeffs : List F), coeffs ≠ [] → ∀ (x r : F),
      ∃ (comm : Polynomial F) (sh : DKGShare F),
        (Polynomial.mk (coeffs.map Coeff.scalar) true).commitment = .ok comm ∧
        (Polynomial.mk (coeffs.map Coeff.scalar) true).evaluate (some x) r = .ok sh ∧
        sh.verify comm = .ok true) ∧
    (∀ (t n : Nat), 1 ≤ t → ∀ (cid : List Nat) (H : HashFn F) (tape : Nat → F)
      (comm : Polynomial F) (pf : SchnorrProof F) (shares : List (DKGShare F)),
      gen_pederson_shares t n cid H tape = .ok (comm, pf, shares) →
      ∀ sh ∈ shares, verify_pederson_share sh comm = .ok true) := by
  constructor
  · intro coeffs hne x r
    refine ⟨⟨coeffs.map (fun c => Coeff.point (scalarMulPt c genPoint)), false⟩,
      ⟨.scalar (horner coeffs x), x⟩, ?_, ?_, ?_⟩
    · simp [Polynomial.commitment, commitCoeffs_scalar, except_bind_ok]
    · exact evaluate_scalar coeffs hne x r
    · exact verify_eval_share coeffs hne x
  · intro t n ht cid H tape comm pf shares hgen sh hsh
    rw [gen_pederson_shares_eq t n ht cid H tape] at hgen
    simp only [Except.ok.injEq, Prod.mk.injEq] at hgen
    obtain ⟨hcomm, _, hshares⟩ := hgen
    subst hcomm
    subst hshares
    obtain ⟨y, rfl⟩ := mem_sharesSpec hsh
    have hl : (List.range t).map tape ≠ [] := by
      simp only [ne_eq, List.map_eq_nil_iff, List.range_eq_nil]
      omega
    exact verify_eval_share _ hl y

/-- Witness for C1: a concrete three-coefficient secret polynomial over
`ZMod 5`, evaluated at index `3`. -/
theorem share_verification_completeness_witness :
    (([(1 : ZMod 5), 2, 3] : List (ZMod 5)) ≠ []) ∧
    ∃ (comm : Polynomial (ZMod 5)) (sh : DKGShare (ZMod 5)),
      (Polynomial.mk ([(1 : ZMod 5), 2, 3].map Coeff.scalar) true).commitment = .ok comm ∧
      (Polynomial.mk ([(1 : ZMod 5), 2, 3].map Coeff.scalar) true).evaluate (some 3) 0 =
        .ok sh ∧
      sh.verify comm = .ok true :=
  ⟨by decide, share_verification_completeness.1 [1, 2, 3] (by decide) 3 0⟩

/-- **C4** — Output shape of Round 1: for every threshold `t` and participant
count `n` with `1 ≤ t ≤ n` and every ceremony id, `gen_pederson_shares`
returns exactly `n` shares and a public commitment whose coefficient count
equals the length of the sampled secret polynomial — which is `t`. -/
theorem round1_output_shape (t n : Nat) (cid : List Nat) (H : HashFn F)
    (tape : Nat → F) (h1 : 1 ≤ t) (_h2 : t ≤ n) :
    ∃ (comm : Polynomial F) (pf : SchnorrProof F) (shares : List (DKGShare F)),
      gen_pederson_shares t n cid H tape = .ok (comm, pf, shares) ∧
      shares.length = n ∧
      comm.coeffs.length = (Polynomial.gen_rand t tape : Polynomial F).coeffs.length ∧
      comm.coeffs.length = t := by
  refine ⟨_, _, _, gen_pederson_shares_eq t n h1 cid H tape, ?_, ?_, ?_⟩
  · exact sharesSpec_length _ _ _ _
  · simp [Polynomial.gen_rand]
  · simp

/-- Witness for C4: the spec's concrete scenario shape, `t = 3`, `n = 5`,
over `ZMod 5`. -/
theorem round1_output_shape_witness :
    (1 ≤ 3 ∧ 3 ≤ 5) ∧
    ∃ (comm : Polynomial (ZMod 5)) (pf : SchnorrProof (ZMod 5))
      (shares : List (DKGShare (ZMod 5))),
      gen_pederson_shares 3 5 [7] (fun _ _ _ => 0) (fun i => (i : ZMod 5)) =
        .ok (comm, pf, shares) ∧
      shares.length = 5 ∧
      comm.coeffs.length =
        (Polynomial.gen_rand 3 (fun i => (i : ZMod 5)) : Polynomial (ZMod 5)).coeffs.length ∧
      comm.coeffs.length = 3 :=
  ⟨⟨by decide, by decide⟩,
   round1_output_shape 3 5 [7] (fun _ _ _ => 0) (fun i => (i : ZMod 5))
     (by decide) (by decide)⟩

/-- **C3** — Two-party split round-trip: for every secret `S`, dealer-chosen
share `Z`, nonzero chosen index `X`, and randomly drawn complementary index
`x'` distinct from `X`, reassembling the element returned by
`split_curvebn(S, Z, X)` with `TwoPartyElement(Z, X)` yields `S`, whichever
of the two elements `reassemble_with` is called on. -/
theorem two_party_split_roundtrip (S Z X x' : F) (hX : X ≠ 0) (hne : x' ≠ X) :
    (TwoPartyElement.split_curvebn S Z X x').reassemble_with ⟨.scalar Z, X⟩ =
      .ok (.scalar S) ∧
    (TwoPartyElement.mk (.scalar Z) X).reassemble_with
      (TwoPartyElement.split_curvebn S Z X x') = .ok (.scalar S) := by
  have hXx' : (X : F) ≠ x' := Ne.symm hne
  have hsub1 : X - x' ≠ 0 := sub_ne_zero.mpr hXx'
  have hsub2 : x' - X ≠ 0 := sub_ne_zero.mpr hne
  have hmain : X / (X - x') * (S + (Z - S) * X⁻¹ * x') + x' / (x' - X) * Z = S := by
    field_simp
    ring
  have hmain' : X / (X - x') * (S + (Z - S) * X⁻¹ * x') + x' / (x' - X) * Z =
      x' / (x' - X) * Z + X / (X - x') * (S + (Z - S) * X⁻¹ * x') := by ring
  constructor
  · simp only [TwoPartyElement.split_curvebn, TwoPartyElement.reassemble_with,
      lambda_coeff_pair_left x' X hXx', lambda_coeff_pair_right x' X hne,
      scalarMulCoeff, coeffAdd, except_bind_ok]
    rw [hmain]
  · simp only [TwoPartyElement.split_curvebn, TwoPartyElement.reassemble_with,
      lambda_coeff_pair_left X x' hne, lambda_coeff_pair_right X x' hXx',
      scalarMulCoeff, coeffAdd, except_bind_ok]
    rw [← hmain', hmain]

/-- Witness for C3: `S = 2`, `Z = 1`, `X = 1`, complementary index `3`, over
`ZMod 5`. -/
theorem two_party_split_roundtrip_witness :
    ((1 : ZMod 5) ≠ 0 ∧ (3 : ZMod 5) ≠ 1) ∧
    ((TwoPartyElement.split_curvebn (2 : ZMod 5) 1 1 3).reassemble_with
      (TwoPartyElement.mk (Coeff.scalar 1) 1) = .ok (.scalar 2) ∧
    (TwoPartyElement.mk (.scalar (1 : ZMod 5)) 1).reassemble_with
      (TwoPartyElement.split_curvebn (2 : ZMod 5) 1 1 3) = .ok (.scalar 2)) :=
  ⟨⟨by decide, by decide⟩, two_party_split_roundtrip 2 1 1 3 (by decide) (by decide)⟩

/-- **C5** — Polynomial serialization round-trips: for every `Polynomial P`
of either tag, decoding its encoding with the matching tag returns `P`
coefficient-wise, assuming the curve library's coefficient codec is
left-inverse on `P`'s coefficients (its canonical fixed-width encodings
are) and each encoded coefficient fits the 4-byte length header. -/
theorem polynomial_serialization_roundtrip (serScalar : F → List Nat)
    (serPoint : Pt F → List Nat) (deserScalar : List Nat → F)
    (deserPoint : List Nat → Pt F) (P : Polynomial F)
    (hrt : ∀ c ∈ P.coeffs, decodeCoeff deserScalar deserPoint P.secret
      (Coeff.to_bytes serScalar serPoint c) = c)
    (hlen : ∀ c ∈ P.coeffs, (Coeff.to_bytes serScalar serPoint c).length < 2 ^ 32) :
    Polynomial.from_bytes deserScalar deserPoint
      (P.to_bytes serScalar serPoint) P.secret = P := by
  unfold Polynomial.from_bytes Polynomial.to_bytes
  rw [dispense_bundle]
  · rw [List.map_map]
    have hcoeffs : P.coeffs.map
        (decodeCoeff deserScalar deserPoint P.secret ∘ Coeff.to_bytes serScalar serPoint) =
        P.coeffs := by
      rw [show P.coeffs = P.coeffs.map id by simp]
      rw [List.map_map]
      exact List.map_congr_left (fun c hc => by simpa using hrt c (by simpa using hc))
    rw [hcoeffs]
  · intro m hm
    obtain ⟨c, hc, rfl⟩ := List.mem_map.mp hm
    exact hlen c hc

/-- Witness for C5: a concrete secret polynomial over `ZMod 5` with the
value-list codec. -/
theorem polynomial_serialization_roundtrip_witness :
    (∀ c ∈ ([Coeff.scalar 3, Coeff.scalar 1] : List (Coeff (ZMod 5))),
      decodeCoeff (fun l => ((l.headI : Nat) : ZMod 5))
        (fun l => ⟨((l.headI : Nat) : ZMod 5)⟩) true
        (Coeff.to_bytes (fun c => [ZMod.val c]) (fun P => [ZMod.val P.dlog]) c) = c) ∧
    Polynomial.from_bytes (fun l => ((l.headI : Nat) : ZMod 5))
      (fun l => ⟨((l.headI : Nat) : ZMod 5)⟩)
      (Polynomial.to_bytes (fun c : ZMod 5 => [ZMod.val c]) (fun P => [ZMod.val P.dlog])
        (⟨[Coeff.scalar 3, Coeff.scalar 1], true⟩ : Polynomial (ZMod 5))) true =
      ⟨[Coeff.scalar 3, Coeff.scalar 1], true⟩ :=
  ⟨by decide,
   polynomial_serialization_roundtrip (fun c : ZMod 5 => [ZMod.val c])
     (fun P => [ZMod.val P.dlog])
     (fun l => ((l.headI : Nat) : ZMod 5)) (fun l => ⟨((l.headI : Nat) : ZMod 5)⟩)
     (⟨[Coeff.scalar 3, Coeff.scalar 1], true⟩ : Polynomial (ZMod 5))
     (by decide) (by decide)⟩

/-- **C6 (counterexample)** — The claim "calling `commitment()` on a
public-tagged Polynomial fails with an `InvalidState` error" is false on the
code: on a concrete public polynomial the call fails with a dynamic type
error from the curve layer instead, and on the empty public polynomial it
does not fail at all. -/
theorem commitment_invalid_state_counterexample :
    (Polynomial.mk [Coeff.point ⟨(1 : ZMod 5)⟩] false).commitment ≠
      .error .invalidState ∧
    (Polynomial.mk [Coeff.point ⟨(1 : ZMod 5)⟩] false).commitment =
      .error .typeError ∧
    (Polynomial.mk ([] : List (Coeff (ZMod 5))) false).commitment =
      .ok ⟨[], false⟩ :=
  ⟨by decide, by decide, by decide⟩

/-- **C6 (amended)** — `commitment()` never consults the secret tag: on any
all-scalar coefficient list (whatever the tag) it returns a public-tagged
polynomial of the same length whose `i`-th coefficient is the `i`-th input
coefficient times the generator; on any list containing a `Point`
coefficient (whatever the tag) it fails with a dynamic type error — not
with `InvalidState`. -/
theorem commitment_no_tag_check :
    (∀ (l : List F) (b : Bool),
      (Polynomial.mk (l.map Coeff.scalar) b).commitment =
        .ok ⟨l.map (fun c => Coeff.point (scalarMulPt c genPoint)), false⟩) ∧
    (∀ (l : List (Coeff F)) (b : Bool) (P : Pt F), Coeff.point P ∈ l →
      (Polynomial.mk l b).commitment = .error .typeError) := by
  constructor
  · intro l b
    simp [Polynomial.commitment, commitCoeffs_scalar, except_bind_ok]
  · intro l b P hP
    simp [Polynomial.commitment, commitCoeffs_point_mem hP, except_bind_error]

/-- Witness for the amended C6: a mixed list with a `Point` coefficient over
`ZMod 5`. -/
theorem commitment_no_tag_check_witness :
    (Coeff.point ⟨(2 : ZMod 5)⟩ ∈
      ([Coeff.scalar 1, Coeff.point ⟨2⟩] : List (Coeff (ZMod 5)))) ∧
    (Polynomial.mk ([Coeff.scalar 1, Coeff.point ⟨2⟩] : List (Coeff (ZMod 5)))
      false).commitment = .error .typeError :=
  ⟨by decide, commitment_no_tag_check.2 [Coeff.scalar 1, Coeff.point ⟨2⟩] false ⟨2⟩ (by decide)⟩

/-- **C7** — Commitment-proof verification and the transcript: for a genuine
triple produced by `gen_pederson_shares` under ceremony id `cid`,
`verify_pederson_commitment` returns `true` with `cid`, and fails with
`ProofInvalid` for every ceremony id `cid'` that the hash oracle separates
from `cid` (as the domain-separated hash of distinct transcripts does). -/
theorem commitment_verification (t n : Nat) (cid cid' : List Nat) (H : HashFn F)
    (tape : Nat → F) (h1 : 1 ≤ t)
    (comm : Polynomial F) (pf : SchnorrProof F) (shares : List (DKGShare F))
    (hgen : gen_pederson_shares t n cid H tape = .ok (comm, pf, shares))
    (hH : ∀ w k, H cid' w k ≠ H cid w k) :
    verify_pederson_commitment comm pf cid H = .ok true ∧
    verify_pederson_commitment comm pf cid' H = .error .proofInvalid := by
  rw [gen_pederson_shares_eq t n h1 cid H tape] at hgen
  simp only [Except.ok.injEq, Prod.mk.injEq] at hgen
  obtain ⟨hcomm, hpf, -⟩ := hgen
  subst hcomm
  subst hpf
  obtain ⟨m, rfl⟩ : ∃ m, t = m + 1 := ⟨t - 1, by omega⟩
  simp only [verify_pederson_commitment, List.range_succ_eq_map, List.map_cons]
  rw [verify_prove, verify_prove]
  constructor
  · rw [if_pos rfl]
  · rw [if_neg]
    exact fun hc => hH _ _ (hc.symm)

/-- Witness for C7: `t = n = 1` over `ZMod 5`, hash oracle = transcript
length, genuine id `[]` against altered id `[9]`. -/
theorem commitment_verification_witness :
    ∃ (comm : Polynomial (ZMod 5)) (pf : SchnorrProof (ZMod 5))
      (shares : List (DKGShare (ZMod 5))),
      gen_pederson_shares 1 1 []
        (fun tr _ _ => ((tr.length : Nat) : ZMod 5)) (fun _ => 1) = .ok (comm, pf, shares) ∧
      (∀ w k, (fun (tr : List Nat) (_ _ : Pt (ZMod 5)) => ((tr.length : Nat) : ZMod 5)) [9] w k ≠
        (fun (tr : List Nat) (_ _ : Pt (ZMod 5)) => ((tr.length : Nat) : ZMod 5)) [] w k) ∧
      verify_pederson_commitment comm pf []
        (fun tr _ _ => ((tr.length : Nat) : ZMod 5)) = .ok true ∧
      verify_pederson_commitment comm pf [9]
        (fun tr _ _ => ((tr.length : Nat) : ZMod 5)) = .error .proofInvalid := by
  refine ⟨_, _, _, rfl, fun w k => by simp, ?_, ?_⟩
  · exact (commitment_verification 1 1 [] [9] _ (fun _ => 1) (by decide) _ _ _ rfl
      (fun w k => by simp)).1
  · exact (commitment_verification 1 1 [] [9] _ (fun _ => 1) (by decide) _ _ _ rfl
      (fun w k => by simp)).2

/-- **C8** — Fixed-width deserialization rejects wrong-length input: for every
byte buffer whose length is not exactly `2 × 32` bytes, both
`SchnorrProof.from_bytes` and `DKGShare.from_bytes` fail with
`MalformedInput` rather than returning a value. -/
theorem from_bytes_wrong_length (deserScalar : List Nat → F) (data : List Nat)
    (h : data.length ≠ 2 * 32) :
    SchnorrProof.from_bytes (F := F) deserScalar data = .error .malformedInput ∧
    DKGShare.from_bytes (F := F) deserScalar data = .error .malformedInput := by
  constructor
  · rw [SchnorrProof.from_bytes, if_neg (by omega)]
  · rw [DKGShare.from_bytes, if_neg (by omega)]

/-- Witness for C8: a 3-byte buffer over `ZMod 5`. -/
theorem from_bytes_wrong_length_witness :
    (([0, 1, 2] : List Nat).length ≠ 2 * 32) ∧
    (SchnorrProof.from_bytes (F := ZMod 5) (fun l => ((l.headI : Nat) : ZMod 5)) [0, 1, 2] =
      .error .malformedInput ∧
    DKGShare.from_bytes (F := ZMod 5) (fun l => ((l.headI : Nat) : ZMod 5)) [0, 1, 2] =
      .error .malformedInput) :=
  ⟨by decide, from_bytes_wrong_length (fun l => ((l.headI : Nat) : ZMod 5)) [0, 1, 2]
    (by decide)⟩

/-- **C9** — `from_shared_secret` is deterministic: any two calls with
identical private key, sharing point, indexing point and params (under the
same derivation function of the curve utilities) return elements with
identical share and index values. -/
theorem from_shared_secret_deterministic {Params : Type}
    (derive : F → Pt F → Params → F) (k1 k2 : F) (sp1 sp2 ip1 ip2 : Pt F)
    (pr1 pr2 : Params) (hk : k1 = k2) (hsp : sp1 = sp2) (hip : ip1 = ip2)
    (hpr : pr1 = pr2) :
    (TwoPartyElement.from_shared_secret derive k1 sp1 ip1 pr1).share =
      (TwoPartyElement.from_shared_secret derive k2 sp2 ip2 pr2).share ∧
    (TwoPartyElement.from_shared_secret derive k1 sp1 ip1 pr1).index =
      (TwoPartyElement.from_shared_secret derive k2 sp2 ip2 pr2).index := by
  subst hk
  subst hsp
  subst hip
  subst hpr
  exact ⟨rfl, rfl⟩

/-- Witness for C9: a concrete Diffie–Hellman-style derivation over
`ZMod 5`. -/
theorem from_shared_secret_deterministic_witness :
    ((3 : ZMod 5) = 3 ∧ (⟨2⟩ : Pt (ZMod 5)) = ⟨2⟩ ∧ (⟨4⟩ : Pt (ZMod 5)) = ⟨4⟩) ∧
    ((TwoPartyElement.from_shared_secret
        (fun a P (_ : Unit) => a * P.dlog) (3 : ZMod 5) ⟨2⟩ ⟨4⟩ ()).share =
      (TwoPartyElement.from_shared_secret
        (fun a P (_ : Unit) => a * P.dlog) (3 : ZMod 5) ⟨2⟩ ⟨4⟩ ()).share ∧
    (TwoPartyElement.from_shared_secret
        (fun a P (_ : Unit) => a * P.dlog) (3 : ZMod 5) ⟨2⟩ ⟨4⟩ ()).index =
      (TwoPartyElement.from_shared_secret
        (fun a P (_ : Unit) => a * P.dlog) (3 : ZMod 5) ⟨2⟩ ⟨4⟩ ()).index) :=
  ⟨⟨rfl, rfl, rfl⟩,
   from_shared_secret_deterministic (fun a P (_ : Unit) => a * P.dlog)
     3 3 ⟨2⟩ ⟨2⟩ ⟨4⟩ ⟨4⟩ () () rfl rfl rfl rfl⟩

/-- **C10** — Commitment verification reads only the constant term: for any
two commitment polynomials whose first coefficients agree (including both
being absent), and any proof, ceremony id and hash oracle,
`verify_pederson_commitment` produces the same outcome on both. -/
theorem commitment_verification_head_only (c1 c2 : Polynomial F)
    (pf : SchnorrProof F) (cid : List Nat) (H : HashFn F)
    (h : c1.coeffs.head? = c2.coeffs.head?) :
    verify_pederson_commitment c1 pf cid H = verify_pederson_commitment c2 pf cid H := by
  rcases hc1 : c1.coeffs with _ | ⟨a, l1⟩ <;> rcases hc2 : c2.coeffs with _ | ⟨b, l2⟩ <;>
    rw [hc1, hc2] at h <;> simp only [List.head?] at h
  · simp [verify_pederson_commitment, hc1, hc2]
  · cases h
  · cases h
  · simp only [Option.some.injEq] at h
    subst h
    simp [verify_pederson_commitment, hc1, hc2]

/-- Witness for C10: two commitments over `ZMod 5` equal in the constant
term but different beyond it. -/
theorem commitment_verification_head_only_witness :
    ((Polynomial.mk [Coeff.point ⟨(1 : ZMod 5)⟩, Coeff.point ⟨2⟩] false).coeffs.head? =
      (Polynomial.mk [Coeff.point ⟨(1 : ZMod 5)⟩] false).coeffs.head?) ∧
    verify_pederson_commitment
      (Polynomial.mk [Coeff.point ⟨(1 : ZMod 5)⟩, Coeff.point ⟨2⟩] false) ⟨0, 0⟩ []
        (fun _ _ _ => 0) =
    verify_pederson_commitment
      (Polynomial.mk [Coeff.point ⟨(1 : ZMod 5)⟩] false) ⟨0, 0⟩ [] (fun _ _ _ => 0) :=
  ⟨by decide,
   commitment_verification_head_only
     (Polynomial.mk [Coeff.point ⟨(1 : ZMod 5)⟩, Coeff.point ⟨2⟩] false)
     (Polynomial.mk [Coeff.point ⟨(1 : ZMod 5)⟩] false) ⟨0, 0⟩ [] (fun _ _ _ => 0)
     (by decide)⟩

end Theorems

end NuCypher
